import Mathlib

/-!
Verification of the download orchestration core of the coursera-downloader
repository (src/downloaders.py, src/utils.py) against its specification.

Modelling conventions:
* Timestamps are integers (`Int`); Python floats returned by `time.time()` and
  `os.path.getmtime` are modelled as integer seconds.  The wall clock observed
  during one `download_modules` invocation is a single value `Config.now`
  (every `time.time()` call inside the run returns it).
* The filesystem is an association list from paths to mtimes.  `os.path.exists`
  is lookup success, writing a file (or creating a directory with `mkdir_p`)
  prepends an entry stamped with the current clock, `os.remove` drops all
  entries of the path.
* Fallible / interruptible code is modelled with `Except`: a raised
  `KeyboardInterrupt` that escapes the dispatcher is `Except.error` carrying
  the state at the point of propagation.
-/

namespace CourseraDl

/-- Filesystem: association list mapping a path to its mtime. -/
abbrev FS := List (String × Int)

/-- First binding of a path, if any (models a filesystem lookup). -/
def FS.mtimeOf (fs : FS) (p : String) : Option Int :=
  match fs with
  | [] => none
  | (q, t) :: rest => if q = p then some t else FS.mtimeOf rest p

/-- `os.path.exists`. -/
def FS.pathExists (fs : FS) (p : String) : Bool := (FS.mtimeOf fs p).isSome

/-- `os.path.getmtime` (only meaningful when the path exists). -/
def FS.getmtime (fs : FS) (p : String) : Int := (FS.mtimeOf fs p).getD 0

/-- Creating or overwriting a file (or directory) at time `t`. -/
def FS.writeFile (fs : FS) (p : String) (t : Int) : FS := (p, t) :: fs

/-- `os.remove` / deletion of a path (total: removing a missing file is a no-op,
as in the code, which swallows `OSError`). -/
def FS.removeFile (fs : FS) (p : String) : FS := fs.filter (fun q => !(q.1 == p))

/-- `utils.total_seconds(td)`: `(td.microseconds + (td.seconds + td.days * 24 * 3600) * 10**6) // 10**6`,
with a `timedelta` given by its normalized (days, seconds, microseconds) triple.
Python `//` is floor division, hence `Int.fdiv`. -/
def total_seconds (days seconds microseconds : Int) : Int :=
  Int.fdiv (microseconds + (seconds + days * 24 * 3600) * 10 ^ 6) (10 ^ 6)

/-- `utils.is_course_complete(last_update)`, with the `time.time()` value passed
explicitly as `now`:  `rv = False; if last_update >= 0: if now - last_update >
total_seconds(timedelta(days=30)): rv = True; return rv`. -/
def is_course_complete (now last_update : Int) : Bool :=
  if last_update ≥ 0 then
    if now - last_update > total_seconds 30 0 0 then true else false
  else false

theorem total_seconds_30days : total_seconds 30 0 0 = 2592000 := by decide

/-- C4: `is_course_complete now w` is true iff `w ≥ 0` and `now - w` strictly
exceeds 30 days (2592000 seconds); at any clock value past that threshold, the
boundary instances hold: `now - 30*86400 - 1` is dormant, `now - 30*86400 + 1`
is not, and the sentinel `-1` is not. -/
theorem c4_dormancy_boundary (now w : Int) (hnow : 2592000 < now) :
    (is_course_complete now w = true ↔ (0 ≤ w ∧ 2592000 < now - w)) ∧
    is_course_complete now (now - 30 * 86400 - 1) = true ∧
    is_course_complete now (now - 30 * 86400 + 1) = false ∧
    is_course_complete now (-1) = false := by
  have h30 : total_seconds 30 0 0 = 2592000 := total_seconds_30days
  unfold is_course_complete
  rw [h30]
  refine ⟨?_, ?_, ?_, ?_⟩
  · constructor
    · intro h
      split at h
      · split at h
        · omega
        · exact absurd h (by simp)
      · exact absurd h (by simp)
    · intro ⟨h1, h2⟩
      rw [if_pos (by omega), if_pos (by omega)]
  · rw [if_pos (by omega), if_pos (by omega)]
  · rw [if_pos (by omega), if_neg (by omega)]
  · rw [if_neg (by omega)]

/-- Behaviour of one injected-Downloader call on a URL, as observed by the
dispatcher through `ConsecutiveDownloader.download` / `_download_wrapper`:
the transfer succeeds (the target file is written), it raises an ordinary
`Exception` (we model a clean failure: the filesystem is unchanged), or it
raises `KeyboardInterrupt` (the `Downloader.download` cleanup of the partial
file has already run; `_download_wrapper` only catches `Exception`, so the
interrupt keeps propagating). -/
inductive DLBeh
  | success
  | failure
  | interrupt
deriving DecidableEq

/-- The three commandline flags read by `CourseraDownloader._handle_resource`. -/
structure Args where
  overwrite : Bool
  resume : Bool
  skip_download : Bool
deriving DecidableEq

/-- Static run configuration.
`skip_format_url` stands for the function of that name from `filtering.py`,
which is not part of the sources at hand; it is kept as an abstract predicate
on (format, url) — no claim depends on its definition.
`dl` is the injected downloader's behaviour per URL, and `now` is the value of
`time.time()` during the run. -/
structure Config where
  args : Args
  skip_format_url : String → String → Bool
  dl : String → DLBeh
  now : Int

/-- `downloaders.IN_MEMORY_MARKER`. -/
def IN_MEMORY_MARKER : String := "#inmemory#"

/-- `Download Outcome` of one obligation. -/
inductive Outcome
  | alreadyPresent
  | written
  | skippedByFormat
  | failed
deriving DecidableEq

/-- Mutable run state of a `CourseraDownloader` plus event logs used to state
frame properties: `writes` records every file opened for writing (in-memory
page dumps, `skip_download` touches, successful transfers), `dlCalls` every URL
handed to the injected downloader, `mkdirs` every directory actually created,
`outcomes` the per-obligation outcome in dispatch order.
`skipped_urls` is `none` exactly when URL-skip tracking is disabled
(`disable_url_skipping`), mirroring `self.skipped_urls = None if ... else []`. -/
structure St where
  fs : FS
  skipped_urls : Option (List String)
  failed_urls : List String
  writes : List String
  dlCalls : List String
  mkdirs : List String
  outcomes : List (String × Outcome)
deriving DecidableEq

/-- `CourseraDownloader._handle_resource(url, fmt, lecture_filename, callback,
last_update)`.  The callback `_download_completion_handler` is inlined (it
appends the URL to `failed_urls` when the result is an exception).  The
returned value is the new `last_update`; a propagating `KeyboardInterrupt` is
`Except.error` with the state at that point.  Note that in the source the
assignment `last_update = time.time()` (line 596) runs for *every* path of the
download branch — including the URL-skip and failed-download sub-branches. -/
def handle_resource (c : Config) (url fmt fn : String) (st : St) (last_update : Int) :
    Except St (St × Int) :=
  if c.args.overwrite || !(FS.pathExists st.fs fn) || c.args.resume then
    if !c.args.skip_download then
      if url.startsWith IN_MEMORY_MARKER then
        .ok ({ st with fs := FS.writeFile st.fs fn c.now,
                       writes := st.writes ++ [fn],
                       outcomes := st.outcomes ++ [(url, .written)] }, c.now)
      else if st.skipped_urls.isSome && c.skip_format_url fmt url then
        .ok ({ st with skipped_urls := st.skipped_urls.map (· ++ [url]),
                       outcomes := st.outcomes ++ [(url, .skippedByFormat)] }, c.now)
      else
        match c.dl url with
        | .success =>
            .ok ({ st with fs := FS.writeFile st.fs fn c.now,
                           writes := st.writes ++ [fn],
                           dlCalls := st.dlCalls ++ [url],
                           outcomes := st.outcomes ++ [(url, .written)] }, c.now)
        | .failure =>
            .ok ({ st with failed_urls := st.failed_urls ++ [url],
                           dlCalls := st.dlCalls ++ [url],
                           outcomes := st.outcomes ++ [(url, .failed)] }, c.now)
        | .interrupt =>
            .error { st with
                       fs := if c.args.resume then FS.writeFile st.fs fn c.now
                             else FS.removeFile st.fs fn,
                       dlCalls := st.dlCalls ++ [url] }
    else
      .ok ({ st with fs := FS.writeFile st.fs fn c.now,
                     writes := st.writes ++ [fn],
                     outcomes := st.outcomes ++ [(url, .written)] }, c.now)
  else
    .ok ({ st with outcomes := st.outcomes ++ [(url, .alreadyPresent)] },
         max last_update (FS.getmtime st.fs fn))

instance {ε α : Type _} [DecidableEq ε] [DecidableEq α] : DecidableEq (Except ε α)
  | .error e, .error f =>
      if h : e = f then .isTrue (by rw [h])
      else .isFalse (fun hc => h (Except.error.inj hc))
  | .error _, .ok _ => .isFalse (fun hc => Except.noConfusion hc)
  | .ok _, .error _ => .isFalse (fun hc => Except.noConfusion hc)
  | .ok a, .ok b =>
      if h : a = b then .isTrue (by rw [h])
      else .isFalse (fun hc => h (Except.ok.inj hc))

/-- A fully resolved download obligation: URL, format, target filename. -/
structure Obl where
  url : String
  fmt : String
  filename : String
deriving DecidableEq

/-- The dispatch loop over a sequence of obligations of one Module
(the innermost loops of `download_modules`, flattened). -/
def handle_resources (c : Config) : List Obl → St → Int → Except St (St × Int)
  | [], st, lu => .ok (st, lu)
  | o :: os, st, lu =>
    match handle_resource c o.url o.fmt o.filename st lu with
    | .error st' => .error st'
    | .ok (st', lu') => handle_resources c os st' lu'

/-- What `Downloader._start_download` did before control returned to
`Downloader.download`: it finished, raised `KeyboardInterrupt`, or raised some
other exception.  The filesystem passed to `Downloader.download` below is the
one left by `_start_download` (a partially written target file, if any, is an
entry for `filename` in it). -/
inductive StartOutcome
  | completed
  | keyboardInterrupt
  | error
deriving DecidableEq

/-- Result of `Downloader.download` as seen by its caller. -/
inductive DlResult
  | ok
  | interrupted
  | raised
deriving DecidableEq

/-- `Downloader.download(url, filename, resume)` (downloaders.py lines 42-59):
runs `_start_download`; on `KeyboardInterrupt`, removes the partial file unless
`resume` is set, then re-raises; any other exception propagates untouched. -/
def Downloader.download (filename : String) (resume : Bool)
    (fsAfterStart : FS) (so : StartOutcome) : FS × DlResult :=
  match so with
  | .completed => (fsAfterStart, .ok)
  | .error => (fsAfterStart, .raised)
  | .keyboardInterrupt =>
      (if resume then fsAfterStart else FS.removeFile fsAfterStart filename,
       .interrupted)

/-- A resource triple as yielded by `IterLecture.resources`.  Modelled from the
spec: `find_resources_to_get` lives in the absent `filtering.py`; its output
list of (format, url, title) triples is taken as given per lecture. -/
structure Resource where
  fmt : String
  url : String
  title : String
deriving DecidableEq

/-- One lecture: its name and the resource triples to fetch for it. -/
structure LectureData where
  name : String
  resources : List Resource
deriving DecidableEq

/-- One section: its name and its ordered lectures. -/
structure SectionData where
  name : String
  lectures : List LectureData
deriving DecidableEq

/-- One module: its name and its ordered sections. -/
structure ModuleData where
  name : String
  sections : List SectionData
deriving DecidableEq

/-- Walker configuration for `_iter_modules`.
`section_filter` / `lecture_filter` model the optional regexes: `none` is a
falsy filter (no filtering), `some p` holds iff `re.search(filter, name)`
matches.  `sectionDir` stands for the `os.path.join(path, class_name,
module_iter.name, format_section(secnum + 1, section, class_name,
verbose_dirs))` computed in `IterSection.__init__`, and `filename` for
`get_lecture_filename` used by `IterLecture.filename`; both `format_section`
and `get_lecture_filename` are in the absent `formatting.py` and are modelled
from the spec as abstract path-building functions of the same data (no claim
depends on their definitions).  `sectionDir` takes (module index, module name,
section index, section name); `filename` takes (section dir, section index,
lecture index, lecture name, resource title, format). -/
structure WalkArgs where
  section_filter : Option (String → Bool)
  lecture_filter : Option (String → Bool)
  sectionDir : Nat → String → Nat → String → String
  filename : String → Nat → Nat → String → String → String → String

/-- `if filter and not re.search(filter, name): continue` — the node survives
iff the filter is absent or matches. -/
def passes (f : Option (String → Bool)) (s : String) : Bool :=
  match f with
  | none => true
  | some p => p s

/-- Innermost loop of `download_modules`: the resources of one lecture, with
`mkName` resolving each resource's target filename
(`lecture.filename(resource.fmt, resource.title)`). -/
def processResources (c : Config) (mkName : Resource → String) :
    List Resource → St → Int → Except St (St × Int)
  | [], st, lu => .ok (st, lu)
  | r :: rs, st, lu =>
    match handle_resource c r.url r.fmt (mkName r) st lu with
    | .error st' => .error st'
    | .ok (st', lu') => processResources c mkName rs st' lu'

/-- Loop over the enumerated lectures of one section
(`IterSection.lectures` applies `lecture_filter` after `enumerate`). -/
def processLectures (c : Config) (w : WalkArgs) (dir : String) (secIdx : Nat) :
    List (Nat × LectureData) → St → Int → Except St (St × Int)
  | [], st, lu => .ok (st, lu)
  | (lecIdx, lec) :: rest, st, lu =>
    if passes w.lecture_filter lec.name then
      match processResources c
          (fun r => w.filename dir secIdx lecIdx lec.name r.title r.fmt)
          lec.resources st lu with
      | .error st' => .error st'
      | .ok (st', lu') => processLectures c w dir secIdx rest st' lu'
    else processLectures c w dir secIdx rest st lu

/-- Loop over the enumerated sections of one module
(`IterModule.sections` applies `section_filter` after `enumerate`); for each
yielded section, `download_modules` runs
`if not os.path.exists(section.dir): mkdir_p(section.dir)` before iterating
the section's lectures. -/
def processSections (c : Config) (w : WalkArgs) (modIdx : Nat) (modName : String) :
    List (Nat × SectionData) → St → Int → Except St (St × Int)
  | [], st, lu => .ok (st, lu)
  | (secIdx, sec) :: rest, st, lu =>
    if passes w.section_filter sec.name then
      let dir := w.sectionDir modIdx modName secIdx sec.name
      let st1 := if FS.pathExists st.fs dir then st
                 else { st with fs := FS.writeFile st.fs dir c.now,
                                mkdirs := st.mkdirs ++ [dir] }
      match processLectures c w dir secIdx sec.lectures.enum st1 lu with
      | .error st' => .error st'
      | .ok (st', lu') => processSections c w modIdx modName rest st' lu'
    else processSections c w modIdx modName rest st lu

/-- Outer loop of `download_modules` over the enumerated modules: each module's
watermark `last_update` starts at `-1`, and
`completed = completed and is_course_complete(last_update)` after its sections
are processed. -/
def processModules (c : Config) (w : WalkArgs) :
    List (Nat × ModuleData) → St → Bool → Except St (St × Bool)
  | [], st, completed => .ok (st, completed)
  | (modIdx, m) :: rest, st, completed =>
    match processSections c w modIdx m.name m.sections.enum st (-1) with
    | .error st' => .error st'
    | .ok (st', lu') =>
        processModules c w rest st' (completed && is_course_complete c.now lu')

/-- `CourseraDownloader.download_modules(modules)`: starts with
`completed = True`, walks the modules, returns the final `completed` verdict
(the `self._downloader.join()` of `ConsecutiveDownloader` is a no-op). -/
def download_modules (c : Config) (w : WalkArgs) (modules : List ModuleData)
    (st : St) : Except St (St × Bool) :=
  processModules c w modules.enum st true

/-- Reference projection for C5: the final per-Module watermark of every module
of the run, in order, each computed from the sentinel `-1` exactly as in
`processModules` but without folding the `completed` conjunction. -/
def moduleVerdicts (c : Config) (w : WalkArgs) :
    List (Nat × ModuleData) → St → Except St (St × List Int)
  | [], st => .ok (st, [])
  | (modIdx, m) :: rest, st =>
    match processSections c w modIdx m.name m.sections.enum st (-1) with
    | .error st' => .error st'
    | .ok (st', lu') =>
        match moduleVerdicts c w rest st' with
        | .error st'' => .error st''
        | .ok (st'', lus) => .ok (st'', lu' :: lus)

/-! Growth invariants of a normally-completing run: the filesystem only gains
entries, the skip-tracking mode is stable, the failure log only grows, and
only the section step ever creates directories. -/

/-- `f` is a sub-filesystem of `g`: every existing path still exists. -/
def FS.sub (f g : FS) : Prop :=
  ∀ p, FS.pathExists f p = true → FS.pathExists g p = true

theorem FS.sub_refl (fs : FS) : FS.sub fs fs := fun _ h => h

theorem FS.sub_trans {a b c : FS} (h1 : FS.sub a b) (h2 : FS.sub b c) :
    FS.sub a c := fun p hp => h2 p (h1 p hp)

theorem FS.pathExists_writeFile (fs : FS) (q p : String) (t : Int) :
    FS.pathExists (FS.writeFile fs q t) p = ((q == p) || FS.pathExists fs p) := by
  unfold FS.pathExists FS.writeFile
  rw [FS.mtimeOf]
  by_cases h : q = p
  · simp [h]
  · simp [h]

theorem FS.sub_writeFile (fs : FS) (q : String) (t : Int) :
    FS.sub fs (FS.writeFile fs q t) := by
  intro p hp
  rw [FS.pathExists_writeFile]
  simp [hp]

theorem handle_resource_invariants (c : Config) (url fmt fn : String) (st : St)
    (lu : Int) (st' : St) (lu' : Int)
    (h : handle_resource c url fmt fn st lu = .ok (st', lu')) :
    FS.sub st.fs st'.fs ∧
    st'.skipped_urls.isSome = st.skipped_urls.isSome ∧
    (∀ u, u ∈ st.failed_urls → u ∈ st'.failed_urls) ∧
    st'.mkdirs = st.mkdirs := by
  unfold handle_resource at h
  split at h
  · split at h
    · split at h
      · injection h with h'
        cases h'
        exact ⟨FS.sub_writeFile _ _ _, rfl, fun u hu => hu, rfl⟩
      · split at h
        · injection h with h'
          cases h'
          refine ⟨FS.sub_refl _, ?_, fun u hu => hu, rfl⟩
          cases st.skipped_urls <;> rfl
        · split at h
          · injection h with h'
            cases h'
            exact ⟨FS.sub_writeFile _ _ _, rfl, fun u hu => hu, rfl⟩
          · injection h with h'
            cases h'
            exact ⟨FS.sub_refl _, rfl,
                   fun u hu => List.mem_append_left _ hu, rfl⟩
          · exact Except.noConfusion h
    · injection h with h'
      cases h'
      exact ⟨FS.sub_writeFile _ _ _, rfl, fun u hu => hu, rfl⟩
  · injection h with h'
    cases h'
    exact ⟨FS.sub_refl _, rfl, fun u hu => hu, rfl⟩

theorem processResources_invariants (c : Config) (mkName : Resource → String)
    (rs : List Resource) (st : St) (lu : Int) (st' : St) (lu' : Int)
    (h : processResources c mkName rs st lu = .ok (st', lu')) :
    FS.sub st.fs st'.fs ∧
    st'.skipped_urls.isSome = st.skipped_urls.isSome ∧
    (∀ u, u ∈ st.failed_urls → u ∈ st'.failed_urls) ∧
    st'.mkdirs = st.mkdirs := by
  induction rs generalizing st lu with
  | nil =>
      rw [processResources] at h
      injection h with h'
      cases h'
      exact ⟨FS.sub_refl _, rfl, fun u hu => hu, rfl⟩
  | cons r rs ih =>
      rw [processResources] at h
      cases hstep : handle_resource c r.url r.fmt (mkName r) st lu with
      | error stx => rw [hstep] at h; exact Except.noConfusion h
      | ok p =>
          obtain ⟨stm, lum⟩ := p
          rw [hstep] at h
          obtain ⟨a1, a2, a3, a4⟩ :=
            handle_resource_invariants c r.url r.fmt (mkName r) st lu stm lum hstep
          obtain ⟨b1, b2, b3, b4⟩ := ih stm lum h
          exact ⟨FS.sub_trans a1 b1, b2.trans a2,
                 fun u hu => b3 u (a3 u hu), b4.trans a4⟩

theorem processLectures_invariants (c : Config) (w : WalkArgs) (dir : String)
    (secIdx : Nat) (ls : List (Nat × LectureData)) (st : St) (lu : Int)
    (st' : St) (lu' : Int)
    (h : processLectures c w dir secIdx ls st lu = .ok (st', lu')) :
    FS.sub st.fs st'.fs ∧
    st'.skipped_urls.isSome = st.skipped_urls.isSome ∧
    (∀ u, u ∈ st.failed_urls → u ∈ st'.failed_urls) ∧
    st'.mkdirs = st.mkdirs := by
  induction ls generalizing st lu with
  | nil =>
      rw [processLectures] at h
      injection h with h'
      cases h'
      exact ⟨FS.sub_refl _, rfl, fun u hu => hu, rfl⟩
  | cons hd rest ih =>
      obtain ⟨lecIdx, lec⟩ := hd
      rw [processLectures] at h
      split at h
      · cases hstep : processResources c
            (fun r => w.filename dir secIdx lecIdx lec.name r.title r.fmt)
            lec.resources st lu with
        | error stx => rw [hstep] at h; exact Except.noConfusion h
        | ok p =>
            obtain ⟨stm, lum⟩ := p
            rw [hstep] at h
            obtain ⟨a1, a2, a3, a4⟩ :=
              processResources_invariants c _ lec.resources st lu stm lum hstep
            obtain ⟨b1, b2, b3, b4⟩ := ih stm lum h
            exact ⟨FS.sub_trans a1 b1, b2.trans a2,
                   fun u hu => b3 u (a3 u hu), b4.trans a4⟩
      · exact ih st lu h

theorem processSections_invariants (c : Config) (w : WalkArgs) (mi : Nat)
    (mname : String) (ss : List (Nat × SectionData)) (st : St) (lu : Int)
    (st' : St) (lu' : Int)
    (h : processSections c w mi mname ss st lu = .ok (st', lu')) :
    FS.sub st.fs st'.fs ∧
    st'.skipped_urls.isSome = st.skipped_urls.isSome ∧
    (∀ u, u ∈ st.failed_urls → u ∈ st'.failed_urls) ∧
    (∀ d, d ∈ st.mkdirs → d ∈ st'.mkdirs) := by
  induction ss generalizing st lu with
  | nil =>
      rw [processSections] at h
      injection h with h'
      cases h'
      exact ⟨FS.sub_refl _, rfl, fun u hu => hu, fun d hd => hd⟩
  | cons hd rest ih =>
      obtain ⟨si, sec⟩ := hd
      simp only [processSections] at h
      split at h
      · cases hstep : processLectures c w (w.sectionDir mi mname si sec.name) si
            sec.lectures.enum
            (if FS.pathExists st.fs (w.sectionDir mi mname si sec.name) then st
             else { st with
                      fs := FS.writeFile st.fs
                              (w.sectionDir mi mname si sec.name) c.now,
                      mkdirs := st.mkdirs
                                ++ [w.sectionDir mi mname si sec.name] }) lu with
        | error stx => rw [hstep] at h; exact Except.noConfusion h
        | ok p =>
            obtain ⟨stm, lum⟩ := p
            rw [hstep] at h
            obtain ⟨a1, a2, a3, a4⟩ := processLectures_invariants c w _ si _ _ lu
              stm lum hstep
            obtain ⟨b1, b2, b3, b4⟩ := ih stm lum h
            by_cases hex : FS.pathExists st.fs (w.sectionDir mi mname si sec.name) = true
            · rw [if_pos hex] at a1 a2 a3 a4
              exact ⟨FS.sub_trans a1 b1, b2.trans a2,
                     fun u hu => b3 u (a3 u hu),
                     fun d hd => b4 d (a4 ▸ hd)⟩
            · rw [if_neg hex] at a1 a2 a3 a4
              refine ⟨FS.sub_trans (FS.sub_trans (FS.sub_writeFile _ _ _) a1) b1,
                      b2.trans a2, fun u hu => b3 u (a3 u hu), ?_⟩
              intro d hd
              refine b4 d ?_
              rw [a4]
              exact List.mem_append_left _ hd
      · exact ih st lu h

theorem processModules_invariants (c : Config) (w : WalkArgs)
    (ms : List (Nat × ModuleData)) (st : St) (b : Bool) (st' : St) (b' : Bool)
    (h : processModules c w ms st b = .ok (st', b')) :
    FS.sub st.fs st'.fs ∧
    st'.skipped_urls.isSome = st.skipped_urls.isSome ∧
    (∀ u, u ∈ st.failed_urls → u ∈ st'.failed_urls) ∧
    (∀ d, d ∈ st.mkdirs → d ∈ st'.mkdirs) := by
  induction ms generalizing st b with
  | nil =>
      rw [processModules] at h
      injection h with h'
      cases h'
      exact ⟨FS.sub_refl _, rfl, fun u hu => hu, fun d hd => hd⟩
  | cons hd rest ih =>
      obtain ⟨mi, m⟩ := hd
      rw [processModules] at h
      cases hstep : processSections c w mi m.name m.sections.enum st (-1) with
      | error stx => rw [hstep] at h; exact Except.noConfusion h
      | ok p =>
          obtain ⟨stm, lum⟩ := p
          rw [hstep] at h
          obtain ⟨a1, a2, a3, a4⟩ :=
            processSections_invariants c w mi m.name _ st (-1) stm lum hstep
          obtain ⟨b1, b2, b3, b4⟩ := ih stm _ h
          exact ⟨FS.sub_trans a1 b1, b2.trans a2,
                 fun u hu => b3 u (a3 u hu), fun d hd => b4 d (a4 d hd)⟩

theorem processSections_dir_exists (c : Config) (w : WalkArgs) (mi : Nat)
    (mname : String) (ss : List (Nat × SectionData)) (st : St) (lu : Int)
    (st' : St) (lu' : Int)
    (h : processSections c w mi mname ss st lu = .ok (st', lu')) :
    ∀ si sec, (si, sec) ∈ ss → passes w.section_filter sec.name = true →
      FS.pathExists st'.fs (w.sectionDir mi mname si sec.name) = true := by
  induction ss generalizing st lu with
  | nil => intro si sec hmem; exact absurd hmem (List.not_mem_nil _)
  | cons hd rest ih =>
      obtain ⟨si0, sec0⟩ := hd
      simp only [processSections] at h
      intro si sec hmem hp
      by_cases hpass : passes w.section_filter sec0.name = true
      · rw [if_pos hpass] at h
        by_cases hex : FS.pathExists st.fs (w.sectionDir mi mname si0 sec0.name) = true
        · rw [if_pos hex] at h
          cases hstep : processLectures c w (w.sectionDir mi mname si0 sec0.name)
              si0 sec0.lectures.enum st lu with
          | error stx => rw [hstep] at h; exact Except.noConfusion h
          | ok p =>
              obtain ⟨stm, lum⟩ := p
              rw [hstep] at h
              rcases List.mem_cons.mp hmem with heq | hmem'
              · injection heq with e1 e2
                rw [e1, e2]
                have g1 := (processLectures_invariants c w _ si0 _ st lu
                  stm lum hstep).1
                have g2 := (processSections_invariants c w mi mname rest stm lum
                  st' lu' h).1
                exact g2 _ (g1 _ hex)
              · exact ih stm lum h si sec hmem' hp
        · rw [if_neg hex] at h
          cases hstep : processLectures c w (w.sectionDir mi mname si0 sec0.name)
              si0 sec0.lectures.enum
              { st with
                  fs := FS.writeFile st.fs
                          (w.sectionDir mi mname si0 sec0.name) c.now,
                  mkdirs := st.mkdirs
                            ++ [w.sectionDir mi mname si0 sec0.name] } lu with
          | error stx => rw [hstep] at h; exact Except.noConfusion h
          | ok p =>
              obtain ⟨stm, lum⟩ := p
              rw [hstep] at h
              rcases List.mem_cons.mp hmem with heq | hmem'
              · injection heq with e1 e2
                rw [e1, e2]
                have hd1 : FS.pathExists
                    (FS.writeFile st.fs (w.sectionDir mi mname si0 sec0.name) c.now)
                    (w.sectionDir mi mname si0 sec0.name) = true := by
                  rw [FS.pathExists_writeFile]
                  simp
                have g1 := (processLectures_invariants c w _ si0 _ _ lu
                  stm lum hstep).1
                have g2 := (processSections_invariants c w mi mname rest stm lum
                  st' lu' h).1
                exact g2 _ (g1 _ hd1)
              · exact ih stm lum h si sec hmem' hp
      · rw [if_neg hpass] at h
        rcases List.mem_cons.mp hmem with heq | hmem'
        · injection heq with e1 e2
          rw [e2] at hp
          exact absurd hp hpass
        · exact ih st lu h si sec hmem' hp

theorem processSections_mkdirs_from (c : Config) (w : WalkArgs) (mi : Nat)
    (mname : String) (ss : List (Nat × SectionData)) (st : St) (lu : Int)
    (st' : St) (lu' : Int)
    (h : processSections c w mi mname ss st lu = .ok (st', lu')) :
    ∀ d, d ∈ st'.mkdirs → d ∈ st.mkdirs ∨
      ∃ si sec, (si, sec) ∈ ss ∧ passes w.section_filter sec.name = true ∧
        d = w.sectionDir mi mname si sec.name := by
  induction ss generalizing st lu with
  | nil =>
      rw [processSections] at h
      injection h with h'
      cases h'
      intro d hd
      left
      exact hd
  | cons hd rest ih =>
      obtain ⟨si0, sec0⟩ := hd
      simp only [processSections] at h
      intro d hd
      by_cases hpass : passes w.section_filter sec0.name = true
      · rw [if_pos hpass] at h
        by_cases hex : FS.pathExists st.fs (w.sectionDir mi mname si0 sec0.name) = true
        · rw [if_pos hex] at h
          cases hstep : processLectures c w (w.sectionDir mi mname si0 sec0.name)
              si0 sec0.lectures.enum st lu with
          | error stx => rw [hstep] at h; exact Except.noConfusion h
          | ok p =>
              obtain ⟨stm, lum⟩ := p
              rw [hstep] at h
              have hmk := (processLectures_invariants c w _ si0 _ st lu
                stm lum hstep).2.2.2
              rcases ih stm lum h d hd with hmem | ⟨si, sec, hmem, hps, hde⟩
              · rw [hmk] at hmem
                left
                exact hmem
              · right
                exact ⟨si, sec, List.mem_cons_of_mem _ hmem, hps, hde⟩
        · rw [if_neg hex] at h
          cases hstep : processLectures c w (w.sectionDir mi mname si0 sec0.name)
              si0 sec0.lectures.enum
              { st with
                  fs := FS.writeFile st.fs
                          (w.sectionDir mi mname si0 sec0.name) c.now,
                  mkdirs := st.mkdirs
                            ++ [w.sectionDir mi mname si0 sec0.name] } lu with
          | error stx => rw [hstep] at h; exact Except.noConfusion h
          | ok p =>
              obtain ⟨stm, lum⟩ := p
              rw [hstep] at h
              have hmk := (processLectures_invariants c w _ si0 _ _ lu
                stm lum hstep).2.2.2
              rcases ih stm lum h d hd with hmem | ⟨si, sec, hmem, hps, hde⟩
              · rw [hmk] at hmem
                rcases List.mem_append.mp hmem with hold | hnew
                · left
                  exact hold
                · right
                  refine ⟨si0, sec0, List.mem_cons_self _ _, hpass, ?_⟩
                  simpa using hnew
              · right
                exact ⟨si, sec, List.mem_cons_of_mem _ hmem, hps, hde⟩
      · rw [if_neg hpass] at h
        rcases ih st lu h d hd with hmem | ⟨si, sec, hmem, hps, hde⟩
        · left
          exact hmem
        · right
          exact ⟨si, sec, List.mem_cons_of_mem _ hmem, hps, hde⟩

theorem processSections_mkdirs_unique (c : Config) (w : WalkArgs) (mi : Nat)
    (mname : String) (ss : List (Nat × SectionData)) (st : St) (lu : Int)
    (st' : St) (lu' : Int)
    (h : processSections c w mi mname ss st lu = .ok (st', lu'))
    (hinv : ∀ d, d ∈ st.mkdirs → FS.pathExists st.fs d = true)
    (hnd : st.mkdirs.Nodup) :
    (∀ d, d ∈ st'.mkdirs → FS.pathExists st'.fs d = true) ∧ st'.mkdirs.Nodup := by
  induction ss generalizing st lu with
  | nil =>
      rw [processSections] at h
      injection h with h'
      cases h'
      exact ⟨hinv, hnd⟩
  | cons hd rest ih =>
      obtain ⟨si0, sec0⟩ := hd
      simp only [processSections] at h
      by_cases hpass : passes w.section_filter sec0.name = true
      · rw [if_pos hpass] at h
        by_cases hex : FS.pathExists st.fs (w.sectionDir mi mname si0 sec0.name) = true
        · rw [if_pos hex] at h
          cases hstep : processLectures c w (w.sectionDir mi mname si0 sec0.name)
              si0 sec0.lectures.enum st lu with
          | error stx => rw [hstep] at h; exact Except.noConfusion h
          | ok p =>
              obtain ⟨stm, lum⟩ := p
              rw [hstep] at h
              obtain ⟨g1, _, _, g4⟩ := processLectures_invariants c w _ si0 _ st lu
                stm lum hstep
              refine ih stm lum h ?_ ?_
              · intro d hd
                rw [g4] at hd
                exact g1 d (hinv d hd)
              · rw [g4]
                exact hnd
        · rw [if_neg hex] at h
          cases hstep : processLectures c w (w.sectionDir mi mname si0 sec0.name)
              si0 sec0.lectures.enum
              { st with
                  fs := FS.writeFile st.fs
                          (w.sectionDir mi mname si0 sec0.name) c.now,
                  mkdirs := st.mkdirs
                            ++ [w.sectionDir mi mname si0 sec0.name] } lu with
          | error stx => rw [hstep] at h; exact Except.noConfusion h
          | ok p =>
              obtain ⟨stm, lum⟩ := p
              rw [hstep] at h
              obtain ⟨g1, _, _, g4⟩ := processLectures_invariants c w _ si0 _ _ lu
                stm lum hstep
              refine ih stm lum h ?_ ?_
              · intro d hd
                rw [g4] at hd
                refine g1 d ?_
                rcases List.mem_append.mp hd with hold | hnew
                · rw [FS.pathExists_writeFile]
                  simp [hinv d hold]
                · have : d = w.sectionDir mi mname si0 sec0.name := by
                    simpa using hnew
                  subst this
                  rw [FS.pathExists_writeFile]
                  simp
              · rw [g4]
                have hnotin : w.sectionDir mi mname si0 sec0.name ∉ st.mkdirs := by
                  intro hc
                  exact hex (hinv _ hc)
                simp [List.nodup_append, hnd, hnotin]
      · rw [if_neg hpass] at h
        exact ih st lu h hinv hnd

theorem processModules_dir_exists (c : Config) (w : WalkArgs)
    (ms : List (Nat × ModuleData)) (st : St) (b : Bool) (st' : St) (b' : Bool)
    (h : processModules c w ms st b = .ok (st', b')) :
    ∀ mi m si sec, (mi, m) ∈ ms → (si, sec) ∈ m.sections.enum →
      passes w.section_filter sec.name = true →
      FS.pathExists st'.fs (w.sectionDir mi m.name si sec.name) = true := by
  induction ms generalizing st b with
  | nil => intro mi m si sec hmem; exact absurd hmem (List.not_mem_nil _)
  | cons hd rest ih =>
      obtain ⟨mi0, m0⟩ := hd
      rw [processModules] at h
      intro mi m si sec hmem hsmem hp
      cases hstep : processSections c w mi0 m0.name m0.sections.enum st (-1) with
      | error stx => rw [hstep] at h; exact Except.noConfusion h
      | ok p =>
          obtain ⟨stm, lum⟩ := p
          rw [hstep] at h
          rcases List.mem_cons.mp hmem with heq | hmem'
          · injection heq with e1 e2
            rw [e2] at hsmem
            rw [e1, e2]
            have hx := processSections_dir_exists c w mi0 m0.name _ st (-1)
              stm lum hstep si sec hsmem hp
            exact (processModules_invariants c w rest stm _ st' b' h).1 _ hx
          · exact ih stm _ h mi m si sec hmem' hsmem hp

theorem processModules_mkdirs_from (c : Config) (w : WalkArgs)
    (ms : List (Nat × ModuleData)) (st : St) (b : Bool) (st' : St) (b' : Bool)
    (h : processModules c w ms st b = .ok (st', b')) :
    ∀ d, d ∈ st'.mkdirs → d ∈ st.mkdirs ∨
      ∃ mi m si sec, (mi, m) ∈ ms ∧ (si, sec) ∈ m.sections.enum ∧
        passes w.section_filter sec.name = true ∧
        d = w.sectionDir mi m.name si sec.name := by
  induction ms generalizing st b with
  | nil =>
      rw [processModules] at h
      injection h with h'
      cases h'
      intro d hd
      left
      exact hd
  | cons hd rest ih =>
      obtain ⟨mi0, m0⟩ := hd
      rw [processModules] at h
      intro d hd
      cases hstep : processSections c w mi0 m0.name m0.sections.enum st (-1) with
      | error stx => rw [hstep] at h; exact Except.noConfusion h
      | ok p =>
          obtain ⟨stm, lum⟩ := p
          rw [hstep] at h
          rcases ih stm _ h d hd with hmem | ⟨mi, m, si, sec, hmem, hsm, hps, hde⟩
          · rcases processSections_mkdirs_from c w mi0 m0.name _ st (-1)
                stm lum hstep d hmem with hold | ⟨si, sec, hsm, hps, hde⟩
            · left
              exact hold
            · right
              exact ⟨mi0, m0, si, sec, List.mem_cons_self _ _, hsm, hps, hde⟩
          · right
            exact ⟨mi, m, si, sec, List.mem_cons_of_mem _ hmem, hsm, hps, hde⟩

theorem processModules_mkdirs_unique (c : Config) (w : WalkArgs)
    (ms : List (Nat × ModuleData)) (st : St) (b : Bool) (st' : St) (b' : Bool)
    (h : processModules c w ms st b = .ok (st', b'))
    (hinv : ∀ d, d ∈ st.mkdirs → FS.pathExists st.fs d = true)
    (hnd : st.mkdirs.Nodup) :
    (∀ d, d ∈ st'.mkdirs → FS.pathExists st'.fs d = true) ∧ st'.mkdirs.Nodup := by
  induction ms generalizing st b with
  | nil =>
      rw [processModules] at h
      injection h with h'
      cases h'
      exact ⟨hinv, hnd⟩
  | cons hd rest ih =>
      obtain ⟨mi0, m0⟩ := hd
      rw [processModules] at h
      cases hstep : processSections c w mi0 m0.name m0.sections.enum st (-1) with
      | error stx => rw [hstep] at h; exact Except.noConfusion h
      | ok p =>
          obtain ⟨stm, lum⟩ := p
          rw [hstep] at h
          obtain ⟨g1, g2⟩ := processSections_mkdirs_unique c w mi0 m0.name _ st (-1)
            stm lum hstep hinv hnd
          exact ih stm _ h g1 g2

theorem processModules_eq_verdicts (c : Config) (w : WalkArgs)
    (ms : List (Nat × ModuleData)) (st : St) (b : Bool) :
    processModules c w ms st b =
      Except.map
        (fun p => (p.1, b && p.2.all (fun lu => is_course_complete c.now lu)))
        (moduleVerdicts c w ms st) := by
  induction ms generalizing st b with
  | nil => simp [processModules, moduleVerdicts, Except.map]
  | cons hd rest ih =>
    obtain ⟨mi, m⟩ := hd
    rw [processModules, moduleVerdicts]
    cases h : processSections c w mi m.name m.sections.enum st (-1) with
    | error st' => simp [Except.map]
    | ok p =>
      obtain ⟨st', lu'⟩ := p
      simp only [ih]
      cases h2 : moduleVerdicts c w rest st' with
      | error st'' => simp [Except.map]
      | ok q => simp [Except.map, Bool.and_assoc]

/-- C5: the `completed` verdict returned by `download_modules` is the logical
AND, over all Modules, of per-Module dormancy, each Module's verdict being
`is_course_complete` of its own final watermark (computed from the sentinel
`-1`); one non-dormant Module makes the verdict false. -/
theorem c5_verdict_is_and_of_dormancy (c : Config) (w : WalkArgs)
    (modules : List ModuleData) (st : St) :
    download_modules c w modules st =
      Except.map
        (fun p => (p.1, p.2.all (fun lu => is_course_complete c.now lu)))
        (moduleVerdicts c w modules.enum st) := by
  rw [download_modules, processModules_eq_verdicts]
  cases moduleVerdicts c w modules.enum st <;> simp [Except.map]

/-- C10: on an empty list of Modules, `download_modules` returns `True`
(`completed` starts at `True` and the loop body never runs), even though no
watermark was ever updated: the vacuous AND bypasses the not-dormant
sentinel rule of `is_course_complete`. -/
theorem c10_empty_run_reports_complete (c : Config) (w : WalkArgs) (st : St) :
    download_modules c w [] st = .ok (st, true) := rfl

/-! Concrete fixtures used by counterexamples and witnesses. -/

/-- Flags `overwrite=false, resume=false, skip_download=false`. -/
def argsFFF : Args := { overwrite := false, resume := false, skip_download := false }

/-- Fresh run state over an empty filesystem, URL-skip tracking enabled. -/
def stEmpty : St :=
  { fs := [], skipped_urls := some [], failed_urls := [], writes := [],
    dlCalls := [], mkdirs := [], outcomes := [] }

/-- Configuration whose URL-skip rule matches everything (clock 100). -/
def cfgSkipAll : Config :=
  { args := argsFFF, skip_format_url := fun _ _ => true,
    dl := fun _ => .failure, now := 100 }

/-- Configuration with no skip rule and an always-succeeding downloader,
clock 10. -/
def cfgDlOk : Config :=
  { args := argsFFF, skip_format_url := fun _ _ => false,
    dl := fun _ => .success, now := 10 }

/-- Configuration with no skip rule and an always-failing downloader,
clock 100. -/
def cfgDlFail : Config :=
  { args := argsFFF, skip_format_url := fun _ _ => false,
    dl := fun _ => .failure, now := 100 }

/-- Configuration whose downloader raises `KeyboardInterrupt`, clock 10. -/
def cfgDlInt : Config :=
  { args := argsFFF, skip_format_url := fun _ _ => false,
    dl := fun _ => .interrupt, now := 10 }

/-- Run state whose filesystem holds one file `"a"` with mtime 1000 (later
than `cfgDlOk.now = 10`). -/
def stMtimeFuture : St := { stEmpty with fs := [("a", 1000)] }

def oblA : Obl := { url := "u1", fmt := "pdf", filename := "a" }
def oblB : Obl := { url := "u2", fmt := "pdf", filename := "b" }

/-- C1 (counterexample): an obligation whose URL matches the URL-skip rule does
NOT leave the watermark unchanged — with previous watermark `-1` and clock
`100`, the skip branch still executes `last_update = time.time()` and returns
`100`. -/
theorem c1_counterexample :
    (handle_resource cfgSkipAll "u" "srt" "file" stEmpty (-1)).toOption.map
        (fun p => (p.2, p.1.outcomes)) =
      some (100, [("u", Outcome.skippedByFormat)]) ∧
    (100 : Int) ≠ (-1 : Int) := by
  exact ⟨by decide, by decide⟩

/-- C1 (amended): when the download branch is taken and the obligation is
either skipped by the URL-skip rule or fails in the Downloader, the watermark
is *set to the current time* — exactly as in the written case — because
`last_update = time.time()` runs on every path of the download branch. -/
theorem c1_amended_watermark_set_to_now (c : Config) (url fmt fn : String)
    (st : St) (lu : Int)
    (hbranch : (c.args.overwrite || !(FS.pathExists st.fs fn) || c.args.resume) = true)
    (hsd : c.args.skip_download = false)
    (hmem : url.startsWith IN_MEMORY_MARKER = false)
    (hcase : (st.skipped_urls.isSome && c.skip_format_url fmt url) = true
             ∨ ((st.skipped_urls.isSome && c.skip_format_url fmt url) = false
                ∧ c.dl url = .failure)) :
    (handle_resource c url fmt fn st lu).toOption.map Prod.snd = some c.now := by
  rcases hcase with hskip | ⟨hskip, hdl⟩
  · simp [handle_resource, hbranch, hsd, hmem, hskip, Except.toOption]
  · simp [handle_resource, hbranch, hsd, hmem, hskip, hdl, Except.toOption]

/-- Witness for C1 (amended) at the skip-rule fixture. -/
theorem c1_amended_watermark_set_to_now_witness :
    ((cfgSkipAll.args.overwrite || !(FS.pathExists stEmpty.fs "file")
        || cfgSkipAll.args.resume) = true) ∧
    (handle_resource cfgSkipAll "u" "srt" "file" stEmpty (-1)).toOption.map
        Prod.snd = some cfgSkipAll.now :=
  ⟨by decide,
   c1_amended_watermark_set_to_now cfgSkipAll "u" "srt" "file" stEmpty (-1)
     (by decide) (by decide) (by decide) (Or.inl (by decide))⟩

/-- C2 (counterexample): the watermark is not monotone and is not the max of
its previous value and the contribution.  With clock 10 and a pre-existing file
`"a"` of mtime 1000: after the first obligation (already present) the
watermark is 1000, after the second (fresh download) it is assigned
`time.time() = 10`, strictly below its previous value. -/
theorem c2_counterexample :
    (handle_resources cfgDlOk [oblA] stMtimeFuture (-1)).toOption.map Prod.snd
      = some 1000 ∧
    (handle_resources cfgDlOk [oblA, oblB] stMtimeFuture (-1)).toOption.map Prod.snd
      = some 10 ∧
    ¬((1000 : Int) ≤ (10 : Int)) := by
  exact ⟨by decide, by decide, by decide⟩

theorem mem_of_mtimeOf (fs : FS) (p : String) (t : Int)
    (h : FS.mtimeOf fs p = some t) : (p, t) ∈ fs := by
  induction fs with
  | nil => simp [FS.mtimeOf] at h
  | cons hd rest ih =>
    obtain ⟨q, s⟩ := hd
    rw [FS.mtimeOf] at h
    split at h
    · next heq =>
        injection h with h'
        subst heq; subst h'
        exact List.mem_cons_self _ _
    · exact List.mem_cons_of_mem _ (ih h)

/-- One dispatch step can only raise the watermark, and keeps it bounded by the
clock, provided the incoming watermark and every file mtime are bounded by the
clock (writes stamp files with the clock, so the bound is preserved). -/
theorem handle_resource_mono (c : Config) (url fmt fn : String) (st : St)
    (lu : Int) (st' : St) (lu' : Int)
    (hlu : lu ≤ c.now) (hfs : ∀ p t, (p, t) ∈ st.fs → t ≤ c.now)
    (h : handle_resource c url fmt fn st lu = .ok (st', lu')) :
    lu ≤ lu' ∧ lu' ≤ c.now ∧ (∀ p t, (p, t) ∈ st'.fs → t ≤ c.now) := by
  unfold handle_resource at h
  split at h
  · split at h
    · split at h
      · injection h with h'
        cases h'
        refine ⟨hlu, le_refl _, ?_⟩
        intro p t hmem
        rcases List.mem_cons.mp hmem with heq | hmem'
        · cases heq; exact le_refl _
        · exact hfs p t hmem'
      · split at h
        · injection h with h'
          cases h'
          exact ⟨hlu, le_refl _, hfs⟩
        · split at h
          · injection h with h'
            cases h'
            refine ⟨hlu, le_refl _, ?_⟩
            intro p t hmem
            rcases List.mem_cons.mp hmem with heq | hmem'
            · cases heq; exact le_refl _
            · exact hfs p t hmem'
          · injection h with h'
            cases h'
            exact ⟨hlu, le_refl _, hfs⟩
          · exact absurd h (by simp)
    · injection h with h'
      cases h'
      refine ⟨hlu, le_refl _, ?_⟩
      intro p t hmem
      rcases List.mem_cons.mp hmem with heq | hmem'
      · cases heq; exact le_refl _
      · exact hfs p t hmem'
  · injection h with h'
    cases h'
    have hmt : FS.getmtime st.fs fn ≤ c.now := by
      unfold FS.getmtime
      cases hm : FS.mtimeOf st.fs fn with
      | none =>
          next hcond =>
          exfalso
          simp only [FS.pathExists, hm, Option.isSome_none] at hcond
          simp at hcond
      | some t => exact hfs fn t (mem_of_mtimeOf _ _ _ hm)
    exact ⟨le_max_left _ _, max_le hlu hmt, hfs⟩

/-- C2 (amended): across any sequence of obligations the per-Module watermark
is monotonically non-decreasing, *provided* the clock is at least the incoming
watermark and at least every existing file's mtime.  (In the already-present
case the code takes a max with the file's mtime; in every other case it
assigns the clock outright, which is why the proviso is needed — see the
counterexample for a decrease when an mtime exceeds the clock.) -/
theorem c2_amended_watermark_monotone (c : Config) (obs : List Obl) (st : St)
    (lu : Int) (st' : St) (lu' : Int)
    (hlu : lu ≤ c.now) (hfs : ∀ p t, (p, t) ∈ st.fs → t ≤ c.now)
    (h : handle_resources c obs st lu = .ok (st', lu')) :
    lu ≤ lu' := by
  induction obs generalizing st lu with
  | nil =>
      rw [handle_resources] at h
      injection h with h'
      cases h'
      exact le_refl _
  | cons o os ih =>
      rw [handle_resources] at h
      cases hstep : handle_resource c o.url o.fmt o.filename st lu with
      | error stx => rw [hstep] at h; exact absurd h (by simp)
      | ok p =>
          obtain ⟨stm, lum⟩ := p
          rw [hstep] at h
          have hm := handle_resource_mono c o.url o.fmt o.filename st lu stm lum
            hlu hfs hstep
          exact le_trans hm.1 (ih stm lum hm.2.1 hm.2.2 h)

/-- State after `cfgDlOk` downloads obligation `oblA` over an empty
filesystem. -/
def stAfterA : St :=
  { fs := [("a", 10)], skipped_urls := some [], failed_urls := [],
    writes := ["a"], dlCalls := ["u1"], mkdirs := [],
    outcomes := [("u1", Outcome.written)] }

/-- Witness for C2 (amended) on a one-obligation run with clock 10. -/
theorem c2_amended_watermark_monotone_witness :
    ((-1 : Int) ≤ cfgDlOk.now) ∧ ((-1 : Int) ≤ (10 : Int)) :=
  ⟨by decide,
   c2_amended_watermark_monotone cfgDlOk [oblA] stEmpty (-1) stAfterA 10
     (by decide) (by intro p t hmem; simp [stEmpty] at hmem) (by decide)⟩

/-- C6: when `_start_download` raises `KeyboardInterrupt`, `Downloader.download`
deletes the partial target file iff `resume` is not requested (preserves it
when it is), and re-raises; and once the interrupt escapes one obligation's
handling, the dispatch loop processes no further obligations (the result does
not depend on `rest`). -/
theorem c6_interrupt_cleanup (fs0 : FS) (fn : String) (c : Config) (o : Obl)
    (rest : List Obl) (st st' : St) (lu : Int)
    (h : handle_resource c o.url o.fmt o.filename st lu = .error st') :
    Downloader.download fn false fs0 .keyboardInterrupt
        = (FS.removeFile fs0 fn, .interrupted) ∧
    Downloader.download fn true fs0 .keyboardInterrupt = (fs0, .interrupted) ∧
    handle_resources c (o :: rest) st lu = .error st' := by
  refine ⟨rfl, rfl, ?_⟩
  rw [handle_resources, h]

/-- State in which `cfgDlInt`'s interrupt on `oblA` propagates. -/
def stIntErr : St :=
  { fs := [], skipped_urls := some [], failed_urls := [], writes := [],
    dlCalls := ["u1"], mkdirs := [], outcomes := [] }

/-- Witness for C6 at an interrupting downloader fixture. -/
theorem c6_interrupt_cleanup_witness :
    (handle_resource cfgDlInt "u1" "pdf" "a" stEmpty (-1) = .error stIntErr) ∧
    (Downloader.download "a" false [("a", 5)] .keyboardInterrupt
        = (FS.removeFile [("a", 5)] "a", .interrupted) ∧
     Downloader.download "a" true [("a", 5)] .keyboardInterrupt
        = ([("a", 5)], .interrupted) ∧
     handle_resources cfgDlInt [oblA, oblB] stEmpty (-1) = .error stIntErr) :=
  ⟨by decide,
   c6_interrupt_cleanup [("a", 5)] "a" cfgDlInt oblA [oblB] stEmpty stIntErr (-1)
     (by decide)⟩

/-- C7: an ordinary Downloader exception is caught at the dispatcher boundary
(`_download_wrapper` catches `Exception`): the step returns normally with the
URL appended to `failed_urls` and outcome `failed`, and the loop continues with
the remaining obligations. -/
theorem c7_failure_caught_run_continues (c : Config) (o : Obl) (rest : List Obl)
    (st : St) (lu : Int)
    (hbranch : (c.args.overwrite || !(FS.pathExists st.fs o.filename)
        || c.args.resume) = true)
    (hsd : c.args.skip_download = false)
    (hmem : o.url.startsWith IN_MEMORY_MARKER = false)
    (hskip : (st.skipped_urls.isSome && c.skip_format_url o.fmt o.url) = false)
    (hdl : c.dl o.url = .failure) :
    handle_resource c o.url o.fmt o.filename st lu =
      .ok ({ st with failed_urls := st.failed_urls ++ [o.url],
                     dlCalls := st.dlCalls ++ [o.url],
                     outcomes := st.outcomes ++ [(o.url, .failed)] }, c.now) ∧
    handle_resources c (o :: rest) st lu =
      handle_resources c rest
        { st with failed_urls := st.failed_urls ++ [o.url],
                  dlCalls := st.dlCalls ++ [o.url],
                  outcomes := st.outcomes ++ [(o.url, .failed)] } c.now := by
  have h1 : handle_resource c o.url o.fmt o.filename st lu =
      .ok ({ st with failed_urls := st.failed_urls ++ [o.url],
                     dlCalls := st.dlCalls ++ [o.url],
                     outcomes := st.outcomes ++ [(o.url, .failed)] }, c.now) := by
    simp [handle_resource, hbranch, hsd, hmem, hskip, hdl]
  exact ⟨h1, by rw [handle_resources, h1]⟩

/-- Witness for C7 at a failing-downloader fixture. -/
theorem c7_failure_caught_run_continues_witness :
    (cfgDlFail.dl oblA.url = .failure) ∧
    (handle_resource cfgDlFail oblA.url oblA.fmt oblA.filename stEmpty (-1) =
      .ok ({ stEmpty with failed_urls := stEmpty.failed_urls ++ [oblA.url],
                          dlCalls := stEmpty.dlCalls ++ [oblA.url],
                          outcomes := stEmpty.outcomes ++ [(oblA.url, .failed)] },
           cfgDlFail.now) ∧
     handle_resources cfgDlFail [oblA, oblB] stEmpty (-1) =
      handle_resources cfgDlFail [oblB]
        { stEmpty with failed_urls := stEmpty.failed_urls ++ [oblA.url],
                       dlCalls := stEmpty.dlCalls ++ [oblA.url],
                       outcomes := stEmpty.outcomes ++ [(oblA.url, .failed)] }
        cfgDlFail.now) :=
  ⟨by decide,
   c7_failure_caught_run_continues cfgDlFail oblA [oblB] stEmpty (-1)
     (by decide) (by decide) (by decide) (by decide) (by decide)⟩

/-!  `utils.clean_filename` and the standard-library text decoding it calls.

`clean_filename` first applies `html_parser.HTMLParser().unescape` and
`urllib's unquote_plus` to its argument, then strips/replaces characters.  The
two stdlib decoders are modelled on the fragment they are exercised on here:
`htmlUnescapeList` decodes the basic named character references and is the
identity on ampersand-free text; `unquotePlusList` maps `+` to a space and
decodes `%XX` ASCII percent-escapes (one pass, no re-decoding), as
`unquote_plus` does. -/

/-- Value of a hex digit as accepted in a `%XX` escape. -/
def hexVal (c : Char) : Option Nat :=
  if '0' ≤ c ∧ c ≤ '9' then some (c.toNat - 48)
  else if 'a' ≤ c ∧ c ≤ 'f' then some (c.toNat - 87)
  else if 'A' ≤ c ∧ c ≤ 'F' then some (c.toNat - 55)
  else none

/-- HTML character-reference decoding (`HTMLParser().unescape`), modelled on
the basic named references; identity on text without an ampersand. -/
def htmlUnescapeList : List Char → List Char
  | [] => []
  | '&' :: 'a' :: 'm' :: 'p' :: ';' :: rest => '&' :: htmlUnescapeList rest
  | '&' :: 'l' :: 't' :: ';' :: rest => '<' :: htmlUnescapeList rest
  | '&' :: 'g' :: 't' :: ';' :: rest => '>' :: htmlUnescapeList rest
  | '&' :: 'q' :: 'u' :: 'o' :: 't' :: ';' :: rest => '"' :: htmlUnescapeList rest
  | '&' :: 'a' :: 'p' :: 'o' :: 's' :: ';' :: rest => Char.ofNat 39 :: htmlUnescapeList rest
  | c :: rest => c :: htmlUnescapeList rest

/-- `unquote_plus`: `+` becomes a space, then `%XX` (two hex digits) decodes to
the character of that code in a single left-to-right pass; a malformed escape
is kept literally.  (Multi-byte UTF-8 escape sequences are out of modelled
range; every input considered here is ASCII.) -/
def unquotePlusList : List Char → List Char
  | [] => []
  | '%' :: a :: b :: rest =>
    match hexVal a, hexVal b with
    | some x, some y => Char.ofNat (16 * x + y) :: unquotePlusList rest
    | some _, none => '%' :: unquotePlusList (a :: b :: rest)
    | none, _ => '%' :: unquotePlusList (a :: b :: rest)
  | '+' :: rest => ' ' :: unquotePlusList rest
  | c :: rest => c :: unquotePlusList rest

/-- The chained replacements
`s.replace(':','-').replace('/','-').replace('\x00','-').replace('\n','')`. -/
def stripForbidden : List Char → List Char
  | [] => []
  | c :: rest =>
    if c = ':' ∨ c = '/' ∨ c = '\x00' then '-' :: stripForbidden rest
    else if c = '\n' then stripForbidden rest
    else c :: stripForbidden rest

/-- `s.rstrip('.')`. -/
def rstripDots (l : List Char) : List Char :=
  (l.reverse.dropWhile (fun c => c == '.')).reverse

/-- Python `str.isspace` characters relevant to `str.strip()`. -/
def isPyWhitespace (c : Char) : Bool :=
  c == ' ' || c == '\t' || c == '\n' || c == '\r' || c == '\x0b' || c == '\x0c'

/-- `s.strip()`. -/
def stripPy (l : List Char) : List Char :=
  ((l.dropWhile isPyWhitespace).reverse.dropWhile isPyWhitespace).reverse

/-- Membership in `'-_.()' + string.ascii_letters + string.digits`. -/
def validChar (c : Char) : Bool :=
  c == '-' || c == '_' || c == '.' || c == '(' || c == ')' || c.isAlpha || c.isDigit

/-- `utils.clean_filename(s, minimal_change)`. -/
def clean_filename (s : String) (minimal_change : Bool) : String :=
  let l := unquotePlusList (htmlUnescapeList s.data)
  let l := stripForbidden l
  if minimal_change then String.mk l
  else
    let l := l.filter (fun c => !(c == '(') && !(c == ')'))
    let l := rstripDots l
    let l := stripPy l
    let l := l.map (fun c => if c == ' ' then '_' else c)
    String.mk (l.filter validChar)

/-- C9 (counterexample): `clean_filename` is not idempotent in either mode.
In minimal-change mode, `"%253A"` URL-decodes once to `"%3A"`, and a second
application decodes that to `":"` and then replaces it with `"-"`.  In full
mode, `"a.?"` keeps its dot (the `?` after it blocks `rstrip('.')`, and only
the final character filter removes the `?`), so a second application strips
the now-trailing dot. -/
theorem c9_counterexample :
    clean_filename (clean_filename "%253A" true) true ≠ clean_filename "%253A" true ∧
    clean_filename (clean_filename "a.?" false) false ≠ clean_filename "a.?" false := by
  exact ⟨by decide, by decide⟩

set_option maxHeartbeats 1000000 in
theorem htmlUnescapeList_cons_ne (c : Char) (rest : List Char) (hc : c ≠ '&') :
    htmlUnescapeList (c :: rest) = c :: htmlUnescapeList rest := by
  rw [htmlUnescapeList.eq_def]
  split
  all_goals rename_i heq
  · exact List.noConfusion heq
  · injection heq with h1 h2; exact absurd h1 hc
  · injection heq with h1 h2; exact absurd h1 hc
  · injection heq with h1 h2; exact absurd h1 hc
  · injection heq with h1 h2; exact absurd h1 hc
  · injection heq with h1 h2; exact absurd h1 hc
  · injection heq with h1 h2; subst h1; subst h2; rfl

set_option maxHeartbeats 1000000 in
theorem unquotePlusList_cons_ne (c : Char) (rest : List Char)
    (hp : c ≠ '%') (hplus : c ≠ '+') :
    unquotePlusList (c :: rest) = c :: unquotePlusList rest := by
  rw [unquotePlusList.eq_def]
  split
  all_goals rename_i heq
  · exact List.noConfusion heq
  · injection heq with h1 h2; exact absurd h1 hp
  · injection heq with h1 h2; exact absurd h1 hplus
  · injection heq with h1 h2; subst h1; subst h2; rfl

theorem htmlUnescapeList_id (l : List Char) (h : ∀ c ∈ l, c ≠ '&') :
    htmlUnescapeList l = l := by
  induction l with
  | nil => rfl
  | cons c rest ih =>
    rw [htmlUnescapeList_cons_ne c rest (h c (List.mem_cons_self _ _)),
        ih (fun d hd => h d (List.mem_cons_of_mem _ hd))]

theorem unquotePlusList_id (l : List Char) (h : ∀ c ∈ l, c ≠ '%' ∧ c ≠ '+') :
    unquotePlusList l = l := by
  induction l with
  | nil => rfl
  | cons c rest ih =>
    have hc := h c (List.mem_cons_self _ _)
    rw [unquotePlusList_cons_ne c rest hc.1 hc.2,
        ih (fun d hd => h d (List.mem_cons_of_mem _ hd))]

theorem stripForbidden_id (l : List Char)
    (h : ∀ c ∈ l, c ≠ ':' ∧ c ≠ '/' ∧ c ≠ '\x00' ∧ c ≠ '\n') :
    stripForbidden l = l := by
  induction l with
  | nil => rfl
  | cons c rest ih =>
    have hc := h c (List.mem_cons_self _ _)
    rw [stripForbidden, if_neg (by tauto), if_neg hc.2.2.2,
        ih (fun d hd => h d (List.mem_cons_of_mem _ hd))]

theorem stripForbidden_mem (l : List Char) (c : Char)
    (h : c ∈ stripForbidden l) : c ∈ l ∨ c = '-' := by
  induction l with
  | nil => simp [stripForbidden] at h
  | cons d rest ih =>
    rw [stripForbidden] at h
    split at h
    · rcases List.mem_cons.mp h with heq | hmem
      · right; exact heq
      · rcases ih hmem with hl | hr
        · left; exact List.mem_cons_of_mem _ hl
        · right; exact hr
    · split at h
      · rcases ih h with hl | hr
        · left; exact List.mem_cons_of_mem _ hl
        · right; exact hr
      · rcases List.mem_cons.mp h with heq | hmem
        · left; cases heq; exact List.mem_cons_self _ _
        · rcases ih hmem with hl | hr
          · left; exact List.mem_cons_of_mem _ hl
          · right; exact hr

theorem stripForbidden_no_forbidden (l : List Char) (c : Char)
    (h : c ∈ stripForbidden l) :
    c ≠ ':' ∧ c ≠ '/' ∧ c ≠ '\x00' ∧ c ≠ '\n' := by
  induction l with
  | nil => simp [stripForbidden] at h
  | cons d rest ih =>
    rw [stripForbidden] at h
    split at h
    · rcases List.mem_cons.mp h with heq | hmem
      · subst heq; refine ⟨by decide, by decide, by decide, by decide⟩
      · exact ih hmem
    · next hnot =>
      split at h
      · exact ih h
      · next hnl =>
        rcases List.mem_cons.mp h with heq | hmem
        · subst heq
          push_neg at hnot
          exact ⟨hnot.1, hnot.2.1, hnot.2.2, hnl⟩
        · exact ih hmem

/-- C9 (amended): `clean_filename` is a pure (hence deterministic) function; in
minimal-change mode it is idempotent on every string containing none of `%`,
`+`, `&` (the characters that make the stdlib decoding steps re-fire).  It is
not idempotent in general in either mode — see the counterexample. -/
theorem c9_amended_minimal_idempotent_on_plain (s : String)
    (h : ∀ c ∈ s.data, c ≠ '%' ∧ c ≠ '+' ∧ c ≠ '&') :
    clean_filename (clean_filename s true) true = clean_filename s true := by
  have hmem : ∀ c ∈ stripForbidden (unquotePlusList (htmlUnescapeList s.data)),
      c ≠ '%' ∧ c ≠ '+' ∧ c ≠ '&' := by
    rw [htmlUnescapeList_id s.data (fun c hc => (h c hc).2.2),
        unquotePlusList_id s.data (fun c hc => ⟨(h c hc).1, (h c hc).2.1⟩)]
    intro c hc
    rcases stripForbidden_mem s.data c hc with hl | hr
    · exact h c hl
    · subst hr; exact ⟨by decide, by decide, by decide⟩
  have key : stripForbidden (unquotePlusList (htmlUnescapeList
        (stripForbidden (unquotePlusList (htmlUnescapeList s.data)))))
      = stripForbidden (unquotePlusList (htmlUnescapeList s.data)) := by
    rw [htmlUnescapeList_id _ (fun c hc => (hmem c hc).2.2),
        unquotePlusList_id _ (fun c hc => ⟨(hmem c hc).1, (hmem c hc).2.1⟩),
        stripForbidden_id _ (fun c hc => by
          rw [htmlUnescapeList_id s.data (fun d hd => (h d hd).2.2),
              unquotePlusList_id s.data
                (fun d hd => ⟨(h d hd).1, (h d hd).2.1⟩)] at hc
          exact stripForbidden_no_forbidden s.data c hc)]
  calc clean_filename (clean_filename s true) true
      = String.mk (stripForbidden (unquotePlusList (htmlUnescapeList
          (stripForbidden (unquotePlusList (htmlUnescapeList s.data)))))) := rfl
    _ = String.mk (stripForbidden (unquotePlusList (htmlUnescapeList s.data))) := by
          rw [key]
    _ = clean_filename s true := rfl

/-- Witness for C9 (amended) at the concrete input `"my file"`. -/
theorem c9_amended_minimal_idempotent_on_plain_witness :
    (∀ c ∈ ("my file" : String).data, c ≠ '%' ∧ c ≠ '+' ∧ c ≠ '&') ∧
    clean_filename (clean_filename "my file" true) true
      = clean_filename "my file" true :=
  ⟨by decide, c9_amended_minimal_idempotent_on_plain "my file" (by decide)⟩

/-! Second-run simulation: with `overwrite=false, resume=false`, re-running the
dispatcher over a filesystem that extends the first run's final filesystem
writes nothing and calls the downloader only on URLs the first run recorded as
failed. -/

/-- With `overwrite=false, resume=false`, an obligation whose target file
exists takes the already-present branch: no write, no downloader call, the
watermark maxed with the existing file's mtime. -/
theorem handle_resource_present (c : Config) (hov : c.args.overwrite = false)
    (hre : c.args.resume = false) (url fmt fn : String) (st : St) (lu : Int)
    (hex : FS.pathExists st.fs fn = true) :
    handle_resource c url fmt fn st lu =
      .ok ({ st with outcomes := st.outcomes ++ [(url, .alreadyPresent)] },
           max lu (FS.getmtime st.fs fn)) := by
  unfold handle_resource
  rw [hov, hre, hex]
  simp

theorem handle_resource_second (c : Config) (hov : c.args.overwrite = false)
    (hre : c.args.resume = false) (url fmt fn : String)
    (stA : St) (luA : Int) (stA' : St) (luA' : Int)
    (h1 : handle_resource c url fmt fn stA luA = .ok (stA', luA'))
    (stB : St) (luB : Int)
    (hF : FS.sub stA'.fs stB.fs)
    (hBsk : stB.skipped_urls.isSome = stA.skipped_urls.isSome) :
    ∃ stB' luB', handle_resource c url fmt fn stB luB = .ok (stB', luB') ∧
      stB'.fs = stB.fs ∧ stB'.writes = stB.writes ∧ stB'.mkdirs = stB.mkdirs ∧
      stB'.skipped_urls.isSome = stB.skipped_urls.isSome ∧
      (∀ u, u ∈ stB'.dlCalls → u ∈ stB.dlCalls ∨ u ∈ stA'.failed_urls) := by
  unfold handle_resource at h1
  rw [hov, hre] at h1
  simp only [Bool.false_or, Bool.or_false] at h1
  by_cases hex1 : FS.pathExists stA.fs fn = true
  · -- run 1: already present
    rw [hex1] at h1
    simp only [Bool.not_true, Bool.false_eq_true, if_false] at h1
    injection h1 with h1'
    cases h1'
    have hexB : FS.pathExists stB.fs fn = true := hF fn hex1
    refine ⟨_, _, handle_resource_present c hov hre url fmt fn stB luB hexB,
            rfl, rfl, rfl, rfl, fun u hu => Or.inl hu⟩
  · have hex1' : FS.pathExists stA.fs fn = false := by
      revert hex1; cases FS.pathExists stA.fs fn <;> simp
    rw [hex1'] at h1
    simp only [Bool.not_false, if_true] at h1
    by_cases hsd : c.args.skip_download = true
    · -- run 1: skip_download touch
      rw [hsd] at h1
      simp only [Bool.not_true, Bool.false_eq_true, if_false] at h1
      injection h1 with h1'
      cases h1'
      have hexB : FS.pathExists stB.fs fn = true := by
        refine hF fn ?_
        rw [FS.pathExists_writeFile]
        simp
      refine ⟨_, _, handle_resource_present c hov hre url fmt fn stB luB hexB,
              rfl, rfl, rfl, rfl, fun u hu => Or.inl hu⟩
    · have hsd' : c.args.skip_download = false := by
        revert hsd; cases c.args.skip_download <;> simp
      rw [hsd'] at h1
      simp only [Bool.not_false, if_true] at h1
      by_cases hmem : url.startsWith IN_MEMORY_MARKER = true
      · -- run 1: in-memory write
        rw [hmem] at h1
        simp only [if_true] at h1
        injection h1 with h1'
        cases h1'
        have hexB : FS.pathExists stB.fs fn = true := by
          refine hF fn ?_
          rw [FS.pathExists_writeFile]
          simp
        refine ⟨_, _, handle_resource_present c hov hre url fmt fn stB luB hexB,
                rfl, rfl, rfl, rfl, fun u hu => Or.inl hu⟩
      · have hmem' : url.startsWith IN_MEMORY_MARKER = false := by
          revert hmem; cases url.startsWith IN_MEMORY_MARKER <;> simp
        rw [hmem'] at h1
        simp only [Bool.false_eq_true, if_false] at h1
        by_cases hsk : (stA.skipped_urls.isSome && c.skip_format_url fmt url) = true
        · -- run 1: URL-skip
          rw [hsk] at h1
          simp only [if_true] at h1
          injection h1 with h1'
          cases h1'
          by_cases hexB : FS.pathExists stB.fs fn = true
          · refine ⟨_, _, handle_resource_present c hov hre url fmt fn stB luB hexB,
                    rfl, rfl, rfl, rfl, fun u hu => Or.inl hu⟩
          · have hexB' : FS.pathExists stB.fs fn = false := by
              revert hexB; cases FS.pathExists stB.fs fn <;> simp
            have hskB : (stB.skipped_urls.isSome && c.skip_format_url fmt url) = true := by
              rw [hBsk]; exact hsk
            refine ⟨{ stB with
                        skipped_urls := stB.skipped_urls.map (· ++ [url]),
                        outcomes := stB.outcomes ++ [(url, .skippedByFormat)] },
                    c.now, ?_, rfl, rfl, rfl, ?_, fun u hu => Or.inl hu⟩
            · unfold handle_resource
              rw [hov, hre, hexB', hsd', hmem', hskB]
              simp
            · cases stB.skipped_urls <;> rfl
        · have hsk' : (stA.skipped_urls.isSome && c.skip_format_url fmt url) = false := by
            revert hsk
            cases (stA.skipped_urls.isSome && c.skip_format_url fmt url) <;> simp
          rw [hsk'] at h1
          simp only [Bool.false_eq_true, if_false] at h1
          cases hdl : c.dl url with
          | success =>
              rw [hdl] at h1
              injection h1 with h1'
              cases h1'
              have hexB : FS.pathExists stB.fs fn = true := by
                refine hF fn ?_
                rw [FS.pathExists_writeFile]
                simp
              refine ⟨_, _, handle_resource_present c hov hre url fmt fn stB luB hexB,
                      rfl, rfl, rfl, rfl, fun u hu => Or.inl hu⟩
          | failure =>
              rw [hdl] at h1
              injection h1 with h1'
              cases h1'
              by_cases hexB : FS.pathExists stB.fs fn = true
              · refine ⟨_, _, handle_resource_present c hov hre url fmt fn stB luB hexB,
                        rfl, rfl, rfl, rfl, fun u hu => Or.inl hu⟩
              · have hexB' : FS.pathExists stB.fs fn = false := by
                  revert hexB; cases FS.pathExists stB.fs fn <;> simp
                have hskB : (stB.skipped_urls.isSome && c.skip_format_url fmt url) = false := by
                  rw [hBsk]; exact hsk'
                refine ⟨{ stB with
                            failed_urls := stB.failed_urls ++ [url],
                            dlCalls := stB.dlCalls ++ [url],
                            outcomes := stB.outcomes ++ [(url, .failed)] },
                        c.now, ?_, rfl, rfl, rfl, rfl, ?_⟩
                · unfold handle_resource
                  rw [hov, hre, hexB', hsd', hmem', hskB, hdl]
                  simp
                · intro u hu
                  rcases List.mem_append.mp hu with hold | hnew
                  · exact Or.inl hold
                  · right
                    refine List.mem_append_right _ ?_
                    simpa using hnew
          | interrupt =>
              rw [hdl] at h1
              exact Except.noConfusion h1

theorem processResources_second (c : Config) (hov : c.args.overwrite = false)
    (hre : c.args.resume = false) (mkName : Resource → String) (rs : List Resource)
    (stA : St) (luA : Int) (stA' : St) (luA' : Int)
    (h1 : processResources c mkName rs stA luA = .ok (stA', luA'))
    (stB : St) (luB : Int)
    (hF : FS.sub stA'.fs stB.fs)
    (hBsk : stB.skipped_urls.isSome = stA.skipped_urls.isSome) :
    ∃ stB' luB', processResources c mkName rs stB luB = .ok (stB', luB') ∧
      stB'.fs = stB.fs ∧ stB'.writes = stB.writes ∧ stB'.mkdirs = stB.mkdirs ∧
      stB'.skipped_urls.isSome = stB.skipped_urls.isSome ∧
      (∀ u, u ∈ stB'.dlCalls → u ∈ stB.dlCalls ∨ u ∈ stA'.failed_urls) := by
  induction rs generalizing stA luA stB luB with
  | nil =>
      rw [processResources] at h1
      injection h1 with h1'
      cases h1'
      exact ⟨stB, luB, rfl, rfl, rfl, rfl, rfl, fun u hu => Or.inl hu⟩
  | cons r rs ih =>
      rw [processResources] at h1
      cases hstep : handle_resource c r.url r.fmt (mkName r) stA luA with
      | error stx => rw [hstep] at h1; exact Except.noConfusion h1
      | ok p =>
          obtain ⟨stM, luM⟩ := p
          rw [hstep] at h1
          obtain ⟨hsub2, hsk2, hfm2, hmk2⟩ :=
            processResources_invariants c mkName rs stM luM stA' luA' h1
          obtain ⟨stBM, luBM, heqB, bfs, bw, bmk, bsk, bdl⟩ :=
            handle_resource_second c hov hre r.url r.fmt (mkName r) stA luA stM luM
              hstep stB luB (FS.sub_trans hsub2 hF) hBsk
          have hFih : FS.sub stA'.fs stBM.fs := by rw [bfs]; exact hF
          have hBsk2 : stBM.skipped_urls.isSome = stM.skipped_urls.isSome := by
            rw [bsk, hBsk]
            exact (handle_resource_invariants c r.url r.fmt (mkName r) stA luA
              stM luM hstep).2.1.symm
          obtain ⟨stB', luB', heq2, cfs, cw, cmk, csk, cdl⟩ :=
            ih stM luM h1 stBM luBM hFih hBsk2
          refine ⟨stB', luB', ?_, cfs.trans bfs, cw.trans bw, cmk.trans bmk,
                  csk.trans bsk, ?_⟩
          · rw [processResources, heqB]
            exact heq2
          · intro u hu
            rcases cdl u hu with hbm | hfa
            · rcases bdl u hbm with hb | hf
              · exact Or.inl hb
              · exact Or.inr (hfm2 u hf)
            · exact Or.inr hfa

theorem processLectures_second (c : Config) (hov : c.args.overwrite = false)
    (hre : c.args.resume = false) (w : WalkArgs) (dir : String) (secIdx : Nat)
    (ls : List (Nat × LectureData))
    (stA : St) (luA : Int) (stA' : St) (luA' : Int)
    (h1 : processLectures c w dir secIdx ls stA luA = .ok (stA', luA'))
    (stB : St) (luB : Int)
    (hF : FS.sub stA'.fs stB.fs)
    (hBsk : stB.skipped_urls.isSome = stA.skipped_urls.isSome) :
    ∃ stB' luB', processLectures c w dir secIdx ls stB luB = .ok (stB', luB') ∧
      stB'.fs = stB.fs ∧ stB'.writes = stB.writes ∧ stB'.mkdirs = stB.mkdirs ∧
      stB'.skipped_urls.isSome = stB.skipped_urls.isSome ∧
      (∀ u, u ∈ stB'.dlCalls → u ∈ stB.dlCalls ∨ u ∈ stA'.failed_urls) := by
  induction ls generalizing stA luA stB luB with
  | nil =>
      rw [processLectures] at h1
      injection h1 with h1'
      cases h1'
      exact ⟨stB, luB, rfl, rfl, rfl, rfl, rfl, fun u hu => Or.inl hu⟩
  | cons hd rest ih =>
      obtain ⟨lecIdx, lec⟩ := hd
      rw [processLectures] at h1
      by_cases hlf : passes w.lecture_filter lec.name = true
      · rw [if_pos hlf] at h1
        cases hstep : processResources c
            (fun r => w.filename dir secIdx lecIdx lec.name r.title r.fmt)
            lec.resources stA luA with
        | error stx => rw [hstep] at h1; exact Except.noConfusion h1
        | ok p =>
            obtain ⟨stM, luM⟩ := p
            rw [hstep] at h1
            obtain ⟨hsub2, hsk2, hfm2, hmk2⟩ :=
              processLectures_invariants c w dir secIdx rest stM luM stA' luA' h1
            obtain ⟨stBM, luBM, heqB, bfs, bw, bmk, bsk, bdl⟩ :=
              processResources_second c hov hre _ lec.resources stA luA stM luM
                hstep stB luB (FS.sub_trans hsub2 hF) hBsk
            have hFih : FS.sub stA'.fs stBM.fs := by rw [bfs]; exact hF
            have hBsk2 : stBM.skipped_urls.isSome = stM.skipped_urls.isSome := by
              rw [bsk, hBsk]
              exact (processResources_invariants c _ lec.resources stA luA
                stM luM hstep).2.1.symm
            obtain ⟨stB', luB', heq2, cfs, cw, cmk, csk, cdl⟩ :=
              ih stM luM h1 stBM luBM hFih hBsk2
            refine ⟨stB', luB', ?_, cfs.trans bfs, cw.trans bw, cmk.trans bmk,
                    csk.trans bsk, ?_⟩
            · rw [processLectures, if_pos hlf, heqB]
              exact heq2
            · intro u hu
              rcases cdl u hu with hbm | hfa
              · rcases bdl u hbm with hb | hf
                · exact Or.inl hb
                · exact Or.inr (hfm2 u hf)
              · exact Or.inr hfa
      · rw [if_neg hlf] at h1
        obtain ⟨stB', luB', heq2, cfs, cw, cmk, csk, cdl⟩ :=
          ih stA luA h1 stB luB hF hBsk
        refine ⟨stB', luB', ?_, cfs, cw, cmk, csk, cdl⟩
        rw [processLectures, if_neg hlf]
        exact heq2

theorem processSections_second (c : Config) (hov : c.args.overwrite = false)
    (hre : c.args.resume = false) (w : WalkArgs) (mi : Nat) (mname : String)
    (ss : List (Nat × SectionData))
    (stA : St) (luA : Int) (stA' : St) (luA' : Int)
    (h1 : processSections c w mi mname ss stA luA = .ok (stA', luA'))
    (stB : St) (luB : Int)
    (hF : FS.sub stA'.fs stB.fs)
    (hBsk : stB.skipped_urls.isSome = stA.skipped_urls.isSome) :
    ∃ stB' luB', processSections c w mi mname ss stB luB = .ok (stB', luB') ∧
      stB'.fs = stB.fs ∧ stB'.writes = stB.writes ∧ stB'.mkdirs = stB.mkdirs ∧
      stB'.skipped_urls.isSome = stB.skipped_urls.isSome ∧
      (∀ u, u ∈ stB'.dlCalls → u ∈ stB.dlCalls ∨ u ∈ stA'.failed_urls) := by
  induction ss generalizing stA luA stB luB with
  | nil =>
      rw [processSections] at h1
      injection h1 with h1'
      cases h1'
      exact ⟨stB, luB, rfl, rfl, rfl, rfl, rfl, fun u hu => Or.inl hu⟩
  | cons hd rest ih =>
      obtain ⟨si, sec⟩ := hd
      simp only [processSections] at h1
      by_cases hpass : passes w.section_filter sec.name = true
      · rw [if_pos hpass] at h1
        by_cases hex1 : FS.pathExists stA.fs (w.sectionDir mi mname si sec.name) = true
        · rw [if_pos hex1] at h1
          cases hstep : processLectures c w (w.sectionDir mi mname si sec.name) si
              sec.lectures.enum stA luA with
          | error stx => rw [hstep] at h1; exact Except.noConfusion h1
          | ok p =>
              obtain ⟨stM, luM⟩ := p
              rw [hstep] at h1
              obtain ⟨hsub2, hsk2, hfm2, hmk2⟩ :=
                processSections_invariants c w mi mname rest stM luM stA' luA' h1
              have hsub1 := (processLectures_invariants c w _ si _ stA luA
                stM luM hstep).1
              have hexB : FS.pathExists stB.fs (w.sectionDir mi mname si sec.name) = true :=
                hF _ (hsub2 _ (hsub1 _ hex1))
              obtain ⟨stBM, luBM, heqB, bfs, bw, bmk, bsk, bdl⟩ :=
                processLectures_second c hov hre w _ si _ stA luA stM luM
                  hstep stB luB (FS.sub_trans hsub2 hF) hBsk
              have hFih : FS.sub stA'.fs stBM.fs := by rw [bfs]; exact hF
              have hBsk2 : stBM.skipped_urls.isSome = stM.skipped_urls.isSome := by
                rw [bsk, hBsk]
                exact (processLectures_invariants c w _ si _ stA luA
                  stM luM hstep).2.1.symm
              obtain ⟨stB', luB', heq2, cfs, cw, cmk, csk, cdl⟩ :=
                ih stM luM h1 stBM luBM hFih hBsk2
              refine ⟨stB', luB', ?_, cfs.trans bfs, cw.trans bw, cmk.trans bmk,
                      csk.trans bsk, ?_⟩
              · simp only [processSections]
                rw [if_pos hpass, if_pos hexB, heqB]
                exact heq2
              · intro u hu
                rcases cdl u hu with hbm | hfa
                · rcases bdl u hbm with hb | hf
                  · exact Or.inl hb
                  · exact Or.inr (hfm2 u hf)
                · exact Or.inr hfa
        · rw [if_neg hex1] at h1
          cases hstep : processLectures c w (w.sectionDir mi mname si sec.name) si
              sec.lectures.enum
              { stA with
                  fs := FS.writeFile stA.fs
                          (w.sectionDir mi mname si sec.name) c.now,
                  mkdirs := stA.mkdirs
                            ++ [w.sectionDir mi mname si sec.name] } luA with
          | error stx => rw [hstep] at h1; exact Except.noConfusion h1
          | ok p =>
              obtain ⟨stM, luM⟩ := p
              rw [hstep] at h1
              obtain ⟨hsub2, hsk2, hfm2, hmk2⟩ :=
                processSections_invariants c w mi mname rest stM luM stA' luA' h1
              have hsub1 := (processLectures_invariants c w _ si _ _ luA
                stM luM hstep).1
              have hexST1 : FS.pathExists
                  (FS.writeFile stA.fs (w.sectionDir mi mname si sec.name) c.now)
                  (w.sectionDir mi mname si sec.name) = true := by
                rw [FS.pathExists_writeFile]
                simp
              have hexB : FS.pathExists stB.fs (w.sectionDir mi mname si sec.name) = true :=
                hF _ (hsub2 _ (hsub1 _ hexST1))
              obtain ⟨stBM, luBM, heqB, bfs, bw, bmk, bsk, bdl⟩ :=
                processLectures_second c hov hre w _ si _ _ luA stM luM
                  hstep stB luB (FS.sub_trans hsub2 hF) hBsk
              have hFih : FS.sub stA'.fs stBM.fs := by rw [bfs]; exact hF
              have hBsk2 : stBM.skipped_urls.isSome = stM.skipped_urls.isSome := by
                rw [bsk, hBsk]
                exact (processLectures_invariants c w _ si _ _ luA
                  stM luM hstep).2.1.symm
              obtain ⟨stB', luB', heq2, cfs, cw, cmk, csk, cdl⟩ :=
                ih stM luM h1 stBM luBM hFih hBsk2
              refine ⟨stB', luB', ?_, cfs.trans bfs, cw.trans bw, cmk.trans bmk,
                      csk.trans bsk, ?_⟩
              · simp only [processSections]
                rw [if_pos hpass, if_pos hexB, heqB]
                exact heq2
              · intro u hu
                rcases cdl u hu with hbm | hfa
                · rcases bdl u hbm with hb | hf
                  · exact Or.inl hb
                  · exact Or.inr (hfm2 u hf)
                · exact Or.inr hfa
      · rw [if_neg hpass] at h1
        obtain ⟨stB', luB', heq2, cfs, cw, cmk, csk, cdl⟩ :=
          ih stA luA h1 stB luB hF hBsk
        refine ⟨stB', luB', ?_, cfs, cw, cmk, csk, cdl⟩
        simp only [processSections]
        rw [if_neg hpass]
        exact heq2

theorem processModules_second (c : Config) (hov : c.args.overwrite = false)
    (hre : c.args.resume = false) (w : WalkArgs)
    (ms : List (Nat × ModuleData))
    (stA : St) (bA : Bool) (stA' : St) (bA' : Bool)
    (h1 : processModules c w ms stA bA = .ok (stA', bA'))
    (stB : St) (bB : Bool)
    (hF : FS.sub stA'.fs stB.fs)
    (hBsk : stB.skipped_urls.isSome = stA.skipped_urls.isSome) :
    ∃ stB' bB', processModules c w ms stB bB = .ok (stB', bB') ∧
      stB'.fs = stB.fs ∧ stB'.writes = stB.writes ∧ stB'.mkdirs = stB.mkdirs ∧
      stB'.skipped_urls.isSome = stB.skipped_urls.isSome ∧
      (∀ u, u ∈ stB'.dlCalls → u ∈ stB.dlCalls ∨ u ∈ stA'.failed_urls) := by
  induction ms generalizing stA bA stB bB with
  | nil =>
      rw [processModules] at h1
      injection h1 with h1'
      cases h1'
      exact ⟨stB, bB, rfl, rfl, rfl, rfl, rfl, fun u hu => Or.inl hu⟩
  | cons hd rest ih =>
      obtain ⟨mi, m⟩ := hd
      rw [processModules] at h1
      cases hstep : processSections c w mi m.name m.sections.enum stA (-1) with
      | error stx => rw [hstep] at h1; exact Except.noConfusion h1
      | ok p =>
          obtain ⟨stM, luM⟩ := p
          rw [hstep] at h1
          obtain ⟨hsub2, hsk2, hfm2, hmk2⟩ :=
            processModules_invariants c w rest stM _ stA' bA' h1
          obtain ⟨stBM, luBM, heqB, bfs, bw, bmk, bsk, bdl⟩ :=
            processSections_second c hov hre w mi m.name _ stA (-1) stM luM
              hstep stB (-1) (FS.sub_trans hsub2 hF) hBsk
          have hFih : FS.sub stA'.fs stBM.fs := by rw [bfs]; exact hF
          have hBsk2 : stBM.skipped_urls.isSome = stM.skipped_urls.isSome := by
            rw [bsk, hBsk]
            exact (processSections_invariants c w mi m.name _ stA (-1)
              stM luM hstep).2.1.symm
          obtain ⟨stB', bB', heq2, cfs, cw, cmk, csk, cdl⟩ :=
            ih stM _ h1 stBM (bB && is_course_complete c.now luBM) hFih hBsk2
          refine ⟨stB', bB', ?_, cfs.trans bfs, cw.trans bw, cmk.trans bmk,
                  csk.trans bsk, ?_⟩
          · rw [processModules, heqB]
            exact heq2
          · intro u hu
            rcases cdl u hu with hbm | hfa
            · rcases bdl u hbm with hb | hf
              · exact Or.inl hb
              · exact Or.inr (hfm2 u hf)
            · exact Or.inr hfa

/-- C3: with `overwrite=false, resume=false`, a second `download_modules` run
over the same syllabus, starting from the filesystem left by a normally
completed first run, completes normally, performs zero file writes, creates no
directories, and hands a URL to the Downloader only if the first run recorded
that URL as failed (in particular, with no first-run failures the Downloader
is never called); an obligation whose target file exists takes the
already-present branch (`handle_resource_present`). -/
theorem c3_second_run_idempotent (c : Config) (w : WalkArgs)
    (hov : c.args.overwrite = false) (hre : c.args.resume = false)
    (modules : List ModuleData) (st1 : St) (st1' : St) (b1 : Bool)
    (h1 : download_modules c w modules st1 = .ok (st1', b1))
    (st2 : St) (hfs : st2.fs = st1'.fs)
    (hsk : st2.skipped_urls.isSome = st1.skipped_urls.isSome) :
    ∃ st2' b2, download_modules c w modules st2 = .ok (st2', b2) ∧
      st2'.fs = st2.fs ∧ st2'.writes = st2.writes ∧ st2'.mkdirs = st2.mkdirs ∧
      (∀ u, u ∈ st2'.dlCalls → u ∈ st2.dlCalls ∨ u ∈ st1'.failed_urls) := by
  rw [download_modules] at h1
  obtain ⟨st2', b2, heq, cfs, cw, cmk, csk, cdl⟩ :=
    processModules_second c hov hre w modules.enum st1 true st1' b1 h1 st2 true
      (by rw [hfs]; exact FS.sub_refl _) hsk
  exact ⟨st2', b2, heq, cfs, cw, cmk, cdl⟩

/-- Walker fixture for C3: no filters, simple concrete path builders. -/
def wC3 : WalkArgs :=
  { section_filter := none, lecture_filter := none,
    sectionDir := fun _ _ _ sn => "d_" ++ sn,
    filename := fun dir _ _ ln _ f => dir ++ "/" ++ ln ++ "." ++ f }

/-- Final state of the first C3 fixture run: directory `"d_S"` created and the
resource downloaded to `"d_S/L.pdf"`. -/
def stC3a : St :=
  { fs := [("d_S/L.pdf", 10), ("d_S", 10)], skipped_urls := some [],
    failed_urls := [], writes := ["d_S/L.pdf"], dlCalls := ["u"],
    mkdirs := ["d_S"], outcomes := [("u", Outcome.written)] }

/-- Fresh state for the second C3 fixture run over the first run's
filesystem. -/
def stC3b : St :=
  { fs := [("d_S/L.pdf", 10), ("d_S", 10)], skipped_urls := some [],
    failed_urls := [], writes := [], dlCalls := [], mkdirs := [],
    outcomes := [] }

/-- Walker fixture for C8: no section filter, a lecture filter that rejects
every lecture, simple concrete path builders. -/
def wC8 : WalkArgs :=
  { section_filter := none,
    lecture_filter := some (fun _ => false),
    sectionDir := fun _ _ _ sn => "dir_" ++ sn,
    filename := fun dir _ _ ln t f => dir ++ "/" ++ ln ++ "_" ++ t ++ "." ++ f }

/-- One module, one section `"S"`, one lecture (filtered out by `wC8`). -/
def modC8 : ModuleData :=
  { name := "M1",
    sections := [{ name := "S",
                   lectures := [{ name := "L",
                                  resources := [{ fmt := "pdf", url := "u",
                                                  title := "t" }] }] }] }

/-- Final state of the C8 fixture run: the section directory was created even
though no lecture survived. -/
def stC8 : St :=
  { fs := [("dir_S", 10)], skipped_urls := some [], failed_urls := [],
    writes := [], dlCalls := [], mkdirs := ["dir_S"], outcomes := [] }

/-- Witness for C3 at a one-resource fixture run twice. -/
theorem c3_second_run_idempotent_witness :
    (cfgDlOk.args.overwrite = false) ∧
    (download_modules cfgDlOk wC3 [modC8] stEmpty = .ok (stC3a, false)) ∧
    (∃ st2' b2, download_modules cfgDlOk wC3 [modC8] stC3b = .ok (st2', b2) ∧
      st2'.fs = stC3b.fs ∧ st2'.writes = stC3b.writes ∧
      st2'.mkdirs = stC3b.mkdirs ∧
      (∀ u, u ∈ st2'.dlCalls → u ∈ stC3b.dlCalls ∨ u ∈ stC3a.failed_urls)) :=
  ⟨rfl, by decide,
   c3_second_run_idempotent cfgDlOk wC3 rfl rfl [modC8] stEmpty stC3a false
     (by decide) stC3b rfl rfl⟩

/-- C8 (counterexample): a Section that survives the section filter but none
of whose Lectures survive the lecture filter STILL gets its directory created:
`download_modules` runs `mkdir_p(section.dir)` as soon as the Section is
yielded, before any Lecture is examined — creation is not lazy in the
Lectures. -/
theorem c8_counterexample :
    download_modules cfgDlOk wC8 [modC8] stEmpty = .ok (stC8, false) ∧
    stC8.mkdirs = ["dir_S"] ∧ (["dir_S"] : List String) ≠ [] := by
  exact ⟨by decide, rfl, by decide⟩

/-- C8 (amended): in a normally-completing run started with an empty creation
log, (1) every Section surviving the section filter has its directory existing
afterwards — even when none of its Lectures survives filtering; (2) every
created directory belongs to some surviving Section (a Section skipped by the
section filter causes no creation); (3) no directory is created twice.
Creation happens when the Section is yielded, not lazily at its first
Lecture — see the counterexample. -/
theorem c8_amended_dir_creation (c : Config) (w : WalkArgs)
    (modules : List ModuleData) (st : St) (st' : St) (b' : Bool)
    (h : download_modules c w modules st = .ok (st', b'))
    (hmk : st.mkdirs = []) :
    (∀ mi m si sec, (mi, m) ∈ modules.enum → (si, sec) ∈ m.sections.enum →
        passes w.section_filter sec.name = true →
        FS.pathExists st'.fs (w.sectionDir mi m.name si sec.name) = true) ∧
    (∀ d, d ∈ st'.mkdirs → ∃ mi m si sec, (mi, m) ∈ modules.enum ∧
        (si, sec) ∈ m.sections.enum ∧ passes w.section_filter sec.name = true ∧
        d = w.sectionDir mi m.name si sec.name) ∧
    st'.mkdirs.Nodup := by
  rw [download_modules] at h
  refine ⟨processModules_dir_exists c w _ st true st' b' h, ?_, ?_⟩
  · intro d hd
    rcases processModules_mkdirs_from c w _ st true st' b' h d hd with hold | hex
    · rw [hmk] at hold
      exact absurd hold (List.not_mem_nil _)
    · exact hex
  · exact (processModules_mkdirs_unique c w _ st true st' b' h
      (by rw [hmk]; intro d hd; exact absurd hd (List.not_mem_nil _))
      (by rw [hmk]; exact List.nodup_nil)).2

/-- Witness for C8 (amended) at the C8 fixture. -/
theorem c8_amended_dir_creation_witness :
    (download_modules cfgDlOk wC8 [modC8] stEmpty = .ok (stC8, false)) ∧
    stEmpty.mkdirs = [] ∧
    ((∀ mi m si sec, (mi, m) ∈ ([modC8] : List ModuleData).enum →
        (si, sec) ∈ m.sections.enum →
        passes wC8.section_filter sec.name = true →
        FS.pathExists stC8.fs (wC8.sectionDir mi m.name si sec.name) = true) ∧
     (∀ d, d ∈ stC8.mkdirs →
        ∃ mi m si sec, (mi, m) ∈ ([modC8] : List ModuleData).enum ∧
          (si, sec) ∈ m.sections.enum ∧
          passes wC8.section_filter sec.name = true ∧
          d = wC8.sectionDir mi m.name si sec.name) ∧
     stC8.mkdirs.Nodup) :=
  ⟨by decide, rfl,
   c8_amended_dir_creation cfgDlOk wC8 [modC8] stEmpty stC8 false (by decide) rfl⟩

/-- Witness for C4 at the concrete clock value 3000000 and watermark 5. -/
theorem c4_dormancy_boundary_witness :
    2592000 < (3000000 : Int) ∧
    ((is_course_complete 3000000 5 = true ↔ (0 ≤ (5 : Int) ∧ 2592000 < (3000000 : Int) - 5)) ∧
     is_course_complete 3000000 (3000000 - 30 * 86400 - 1) = true ∧
     is_course_complete 3000000 (3000000 - 30 * 86400 + 1) = false ∧
     is_course_complete 3000000 (-1) = false) :=
  ⟨by decide, c4_dormancy_boundary 3000000 5 (by decide)⟩

end CourseraDl
